import Mathlib

/-!
Verification of the proteld capture daemon (src/proteld.c).

Bytes are modelled as `Nat` (values 0..255 in practice; no proof depends on
an upper bound).  A buffer is a `List Nat` holding exactly the `bytes_read`
accumulated bytes; the C code's terminating write `buf[bytes_read] = 0`
is reflected by every string-style scan (`strlenL`, `countStars`, `strTake`)
stopping at the end of the list as well as at an embedded zero byte.
-/

namespace Proteld

/-- C `strlen` on a byte list: number of bytes before the first zero
(the terminator at the end of the list counts as the final zero). -/
def strlenL : List Nat → Nat
  | [] => 0
  | c :: t => if c = 0 then 0 else strlenL t + 1

/-- C `memchr(buf, '*', len)`: index of the first `'*'` (42) byte, if any. -/
def memchrStar : List Nat → Option Nat
  | [] => none
  | c :: t => if c = 42 then some 0 else (memchrStar t).map (· + 1)

/-- The star-counting loop of `data_done`:
`while (*tmp) { if (*tmp++ == '*') stars++; }`. -/
def countStars : List Nat → Nat
  | [] => 0
  | c :: t => if c = 0 then 0 else (if c = 42 then 1 else 0) + countStars t

/-- `snprintf` precision copy `%.*s`: at most `n` bytes, stopping at a zero. -/
def strTake : Nat → List Nat → List Nat
  | 0, _ => []
  | _ + 1, [] => []
  | n + 1, c :: t => if c = 0 then [] else c :: strTake n t

/-- The neighbor predicates used by the `AUTOCORRECT` rule table:
`isdigit`, the `is_d` macro (`== 'D'`), and the `TRUE` macro. -/
inductive NPred
  | digit
  | isD
  | top
deriving DecidableEq

def NPred.eval : NPred → Nat → Bool
  | .digit, c => 48 ≤ c && c ≤ 57
  | .isD, c => c == 68
  | .top, _ => true

/-- One `AUTOCORRECT(pos, c, condl, condr)` instantiation. -/
structure Rule where
  pos : Nat
  expected : Nat
  condl : NPred
  condr : NPred
deriving DecidableEq

/-- The guard of the `AUTOCORRECT` macro: the byte differs from the expected
character and both neighbor predicates hold. -/
def ruleFires (d : List Nat) (r : Rule) : Bool :=
  d.getD r.pos 0 != r.expected
    && r.condl.eval (d.getD (r.pos - 1) 0)
    && r.condr.eval (d.getD (r.pos + 1) 0)

/-- The `AUTOCORRECT` macro body: conditionally rewrite the byte at `r.pos`. -/
def applyRule (d : List Nat) (r : Rule) : List Nat :=
  if ruleFires d r then d.set r.pos r.expected else d

def rule11 : Rule := ⟨11, 42, NPred.digit, NPred.digit⟩
def rule17 : Rule := ⟨17, 42, NPred.digit, NPred.isD⟩
def rule24 : Rule := ⟨24, 42, NPred.digit, NPred.digit⟩
def rule29 : Rule := ⟨29, 42, NPred.digit, NPred.digit⟩
def rule33 : Rule := ⟨33, 42, NPred.digit, NPred.digit⟩
def rule47 : Rule := ⟨47, 42, NPred.digit, NPred.digit⟩
def rule53 : Rule := ⟨53, 42, NPred.digit, NPred.top⟩

/-- The rule table of `autocorrect`, in source order. -/
def rules : List Rule :=
  [rule11, rule17, rule24, rule29, rule33, rule47, rule53]

/-- Sequential in-place application of a list of `AUTOCORRECT` lines. -/
def applyRules (d : List Nat) (rs : List Rule) : List Nat :=
  rs.foldl applyRule d

/-- `autocorrect(data)` from src/proteld.c: a no-op unless
`strlen(data) > DATA_LENGTH` (54), otherwise the seven `AUTOCORRECT`
macro lines applied in source order. -/
def autocorrect (d : List Nat) : List Nat :=
  if strlenL d ≤ 54 then d
  else applyRules d rules

/-- `data_done(buf, len)` from src/proteld.c, returning the validation verdict
together with the buffer as mutated by the in-place `autocorrect` call
(the mutation is visible to the caller even when the verdict is `false`). -/
def data_doneRun (l : List Nat) : Bool × List Nat :=
  if l.length < 54 then (false, l)
  else
    match memchrStar l with
    | none => (false, l)
    | some p =>
      if l.length - p < 54 then (false, l)
      else if countStars (autocorrect (l.drop p)) < 7 then
        (false, l.take p ++ autocorrect (l.drop p))
      else if strlenL (autocorrect (l.drop p)) < 53 then
        (false, l.take p ++ autocorrect (l.drop p))
      else (true, l.take p ++ autocorrect (l.drop p))

/-- `memmem(hay, hay_len, pat, pat_len) != NULL`: the pattern occurs as a
contiguous run somewhere in the haystack. -/
def hasSub (pat : List Nat) : List Nat → Bool
  | [] => pat.isPrefixOf []
  | c :: t => pat.isPrefixOf (c :: t) || hasSub pat t

/-- The corruption check of the handler loop:
`bytes_read > DATA_LENGTH && (memmem(buf + 30, bytes_read - 30, "\x01\x00\x00", 3)
|| memmem(buf + 30, bytes_read - 30, "\x00\x00\x00", 3))`. -/
def isCorrupted (l : List Nat) : Bool :=
  decide (54 < l.length)
    && (hasSub [1, 0, 0] (l.drop 30) || hasSub [0, 0, 0] (l.drop 30))

/-- Terminal states of one session of the handler loop. -/
inductive Outcome
  | success
  | aborted
  | closed
deriving DecidableEq

/-- The handler read loop of src/proteld.c, driven by the list of successive
`read` results (each element the bytes one `read` call delivers; `read` never
returns more than `left - 1` bytes, and a `read` that returns no bytes ends
the session).  State: accumulated bytes, remaining capacity `left`
(initially `sizeof(buf) = 512`), and the `reset` counter.
Returns the terminal outcome, the final buffer, and the final reset count. -/
def runSession : List Nat → Nat → Nat → List (List Nat) → Outcome × List Nat × Nat
  | buf, _, reset, [] => (Outcome.closed, buf, reset)
  | buf, left, reset, c :: rest =>
    let c2 := c.take (left - 1)
    if c2.length = 0 then (Outcome.closed, buf, reset)
    else
      let buf2 := (data_doneRun (buf ++ c2)).2
      if (data_doneRun (buf ++ c2)).1 then (Outcome.success, buf2, reset)
      else if isCorrupted buf2 then
        if reset + 1 = 2 then (Outcome.aborted, buf2, reset + 1)
        else runSession [] 512 (reset + 1) rest
      else runSession buf2 (left - c2.length) reset rest

/-- The fill level `bytes_read` right after each append in the handler loop
(the index at which `buf[bytes_read] = 0` is written that iteration). -/
def sessionFills : List Nat → Nat → Nat → List (List Nat) → List Nat
  | _, _, _, [] => []
  | buf, left, reset, c :: rest =>
    let c2 := c.take (left - 1)
    if c2.length = 0 then []
    else
      let buf2 := (data_doneRun (buf ++ c2)).2
      (buf ++ c2).length ::
        (if (data_doneRun (buf ++ c2)).1 then []
         else if isCorrupted buf2 then
           if reset + 1 = 2 then [] else sessionFills [] 512 (reset + 1) rest
         else sessionFills buf2 (left - c2.length) reset rest)

/-- Externally visible post-loop effects of the handler, in program order:
`close(fd)` first, then (when `log_to_file` is set) the `save_data` call
with the final buffer and success flag. -/
inductive Ev
  | close
  | persist (buf : List Nat) (success : Bool)
deriving DecidableEq

def handlerTrace (logToFile : Bool) (cs : List (List Nat)) : List Ev :=
  let r := runSession [] 512 0 cs
  Ev.close :: (if logToFile then [Ev.persist r.2.1 (r.1 == Outcome.success)] else [])

/-- The phone-number field of the success filename in `save_data`:
`tmp = memchr(buf, '*', len); tmp++;` then `%.*s` with precision 10. -/
def successField (buf : List Nat) : List Nat :=
  match memchrStar buf with
  | some p => strTake 10 (buf.drop (p + 1))
  | none => []

/-- The pieces of the success filename
`"%s/%lu_%.*s.txt" % (outputdir, time(NULL), 10, tmp)`. -/
structure SuccessFilename where
  dir : List Nat
  epochTime : Nat
  idField : List Nat
  ext : List Nat
deriving DecidableEq

def save_name_success (dir : List Nat) (t : Nat) (buf : List Nat) : SuccessFilename :=
  ⟨dir, t, successField buf, [46, 116, 120, 116]⟩

/-- The sample printout from the source comments:
`*3115552368*43125*DD8822*1234*032*2312237122028*37090*` (54 bytes). -/
def samplePayload : List Nat :=
  [42, 51, 49, 49, 53, 53, 53, 50, 51, 54, 56,
   42, 52, 51, 49, 50, 53,
   42, 68, 68, 56, 56, 50, 50,
   42, 49, 50, 51, 52,
   42, 48, 51, 50,
   42, 50, 51, 49, 50, 50, 51, 55, 49, 50, 50, 48, 50, 56,
   42, 51, 55, 48, 57, 48,
   42]

/-- A 54-byte buffer whose seven fixed offsets all hold `'*'` but whose
second byte is a zero byte: structurally well-formed per the spec's layout
rule, yet rejected by `data_done`. -/
def starsButZero : List Nat :=
  [42, 0, 48, 48, 48, 48, 48, 48, 48, 48, 48,
   42, 48, 48, 48, 48, 48,
   42, 48, 48, 48, 48, 48, 48,
   42, 48, 48, 48, 48,
   42, 48, 48, 48,
   42, 48, 48, 48, 48, 48, 48, 48, 48, 48, 48, 48, 48, 48,
   42, 48, 48, 48, 48, 48,
   42]

/-- A 55-byte buffer with a single `'*'` (at offset 0), all other bytes
digits except a `'D'` at offset 18: every autocorrection rule fires, raising
the star count from 1 to 8, and `data_done` accepts it. -/
def starOne : List Nat :=
  [42, 48, 48, 48, 48, 48, 48, 48, 48, 48, 48,
   48, 48, 48, 48, 48, 48,
   48, 68, 48, 48, 48, 48, 48,
   48, 48, 48, 48, 48,
   48, 48, 48, 48,
   48, 48, 48, 48, 48, 48, 48, 48, 48, 48, 48, 48, 48, 48,
   48, 48, 48, 48, 48, 48,
   48, 48]

/-- A 54-byte buffer with `'*'` at offsets 0, 11, 17, 24, 29, 33, 47 and a
zero byte at offset 53 (53 bytes after the first delimiter): still accepted
by `data_done`. -/
def zeroAt53 : List Nat :=
  [42, 48, 48, 48, 48, 48, 48, 48, 48, 48, 48,
   42, 48, 48, 48, 48, 48,
   42, 48, 48, 48, 48, 48, 48,
   42, 48, 48, 48, 48,
   42, 48, 48, 48,
   42, 48, 48, 48, 48, 48, 48, 48, 48, 48, 48, 48, 48, 48,
   42, 48, 48, 48, 48, 48,
   0]

/-- A noisy preamble such as precedes the payload on the wire:
`TC!` followed by zero bytes and a `144` byte; contains no `'*'`. -/
def samplePreamble : List Nat := [84, 67, 33, 0, 0, 0, 144, 0, 0, 0, 0]

/-- A buffer with strlen 55 used to exercise the autocorrection pass. -/
def c5buf : List Nat := samplePayload ++ [48]

/-- A buffer with a single `'*'` far from the front and almost no stars. -/
def lowStars : List Nat := List.replicate 60 48 ++ [42]

/-- A 58-byte buffer carrying the all-zero corruption marker at offset 30. -/
def markerAt30 : List Nat := List.replicate 30 48 ++ [0, 0, 0] ++ List.replicate 25 48

example : samplePayload.length = 54 := by decide
example : (data_doneRun samplePayload).1 = true := by decide
example : strlenL samplePayload = 54 := by decide
example : countStars samplePayload = 8 := by decide

/-! ### Helper lemmas: `List.getD`, `List.set`, `strlenL` -/

theorem getD_set_ne (l : List Nat) (i j v : Nat) (h : i ≠ j) :
    (l.set i v).getD j 0 = l.getD j 0 := by
  induction l generalizing i j with
  | nil => rfl
  | cons a t ih =>
    cases i with
    | zero =>
      cases j with
      | zero => exact absurd rfl h
      | succ j => simp [List.set]
    | succ i =>
      cases j with
      | zero => simp [List.set]
      | succ j =>
        simp only [List.set, List.getD_cons_succ]
        exact ih i j (by omega)

theorem getD_set_self (l : List Nat) (i v : Nat) (h : i < l.length) :
    (l.set i v).getD i 0 = v := by
  induction l generalizing i with
  | nil => simp at h
  | cons a t ih =>
    cases i with
    | zero => simp [List.set]
    | succ i =>
      simp only [List.set, List.getD_cons_succ]
      exact ih i (by simpa using h)

theorem strlenL_le_length (l : List Nat) : strlenL l ≤ l.length := by
  induction l with
  | nil => simp [strlenL]
  | cons a t ih =>
    by_cases h : a = 0
    · simp [strlenL, h]
    · simp only [strlenL, if_neg h, List.length_cons]
      omega

theorem getD_ne_zero_of_lt_strlenL (l : List Nat) (j : Nat) (h : j < strlenL l) :
    l.getD j 0 ≠ 0 := by
  induction l generalizing j with
  | nil => simp [strlenL] at h
  | cons a t ih =>
    by_cases ha : a = 0
    · simp [strlenL, ha] at h
    · cases j with
      | zero => simpa using ha
      | succ j =>
        simp only [strlenL, if_neg ha] at h
        simpa using ih j (by omega)

theorem le_strlenL_of_forall_ne_zero (l : List Nat) (n : Nat)
    (h : ∀ i, i < n → l.getD i 0 ≠ 0) (hn : n ≤ l.length) : n ≤ strlenL l := by
  induction l generalizing n with
  | nil => simp at hn; omega
  | cons a t ih =>
    cases n with
    | zero => exact Nat.zero_le _
    | succ m =>
      have ha : a ≠ 0 := by simpa using h 0 (Nat.succ_pos m)
      have hm : m ≤ strlenL t :=
        ih m (fun i hi => by simpa using h (i + 1) (by omega)) (by simpa using hn)
      simp only [strlenL, if_neg ha]
      omega

theorem strlenL_le_of_getD_zero (l : List Nat) (k : Nat) (h : l.getD k 0 = 0) :
    strlenL l ≤ k := by
  induction l generalizing k with
  | nil => simp [strlenL]
  | cons a t ih =>
    cases k with
    | zero =>
      simp only [List.getD_cons_zero] at h
      simp [strlenL, h]
    | succ k =>
      by_cases ha : a = 0
      · simp [strlenL, ha]
      · simp only [strlenL, if_neg ha]
        have := ih k (by simpa using h)
        omega

theorem strlenL_set (l : List Nat) (i v : Nat) (hi : i < strlenL l) (hv : v ≠ 0) :
    strlenL (l.set i v) = strlenL l := by
  induction l generalizing i with
  | nil => simp [strlenL] at hi
  | cons a t ih =>
    by_cases ha : a = 0
    · simp [strlenL, ha] at hi
    · cases i with
      | zero => simp [List.set, strlenL, ha, hv]
      | succ i =>
        simp only [strlenL, if_neg ha] at hi
        simp only [List.set, strlenL, if_neg ha]
        rw [ih i (by omega)]

theorem getD_drop (l : List Nat) (p k : Nat) :
    (l.drop p).getD k 0 = l.getD (p + k) 0 := by
  induction l generalizing p with
  | nil => simp
  | cons a t ih =>
    cases p with
    | zero => simp
    | succ p =>
      simp only [List.drop_succ_cons]
      rw [ih p]
      simp [Nat.succ_add]

/-! ### Helper lemmas: `memchrStar` -/

theorem memchrStar_spec (l : List Nat) (p : Nat) (h : memchrStar l = some p) :
    p < l.length ∧ l.getD p 0 = 42 ∧ ∀ j, j < p → l.getD j 0 ≠ 42 := by
  induction l generalizing p with
  | nil => simp [memchrStar] at h
  | cons a t ih =>
    by_cases ha : a = 42
    · simp only [memchrStar, if_pos ha, Option.some.injEq] at h
      subst h
      exact ⟨by simp, by simpa using ha, fun j hj => by omega⟩
    · simp only [memchrStar, if_neg ha] at h
      cases ht : memchrStar t with
      | none => rw [ht] at h; simp at h
      | some q =>
        rw [ht] at h
        simp only [Option.map_some', Option.some.injEq] at h
        subst h
        obtain ⟨h1, h2, h3⟩ := ih q ht
        refine ⟨by simpa using h1, by simpa using h2, fun j hj => ?_⟩
        cases j with
        | zero => simpa using ha
        | succ j => simpa using h3 j (by omega)

theorem memchrStar_take_ne (l : List Nat) (p : Nat) (h : memchrStar l = some p) :
    ∀ x ∈ l.take p, x ≠ 42 := by
  induction l generalizing p with
  | nil => simp
  | cons a t ih =>
    by_cases ha : a = 42
    · simp only [memchrStar, if_pos ha, Option.some.injEq] at h
      subst h
      simp
    · simp only [memchrStar, if_neg ha] at h
      cases ht : memchrStar t with
      | none => rw [ht] at h; simp at h
      | some q =>
        rw [ht] at h
        simp only [Option.map_some', Option.some.injEq] at h
        subst h
        intro x hx
        rw [List.take_succ_cons] at hx
        rcases List.mem_cons.mp hx with rfl | hx
        · exact ha
        · exact ih q ht x hx

theorem memchrStar_of_head (d : List Nat) (hne : d ≠ []) (h : d.getD 0 0 = 42) :
    memchrStar d = some 0 := by
  cases d with
  | nil => exact absurd rfl hne
  | cons a t =>
    simp only [List.getD_cons_zero] at h
    simp [memchrStar, h]

theorem memchrStar_append (pre d : List Nat) (hpre : ∀ x ∈ pre, x ≠ 42)
    (hd : memchrStar d = some 0) :
    memchrStar (pre ++ d) = some pre.length := by
  induction pre with
  | nil => simpa using hd
  | cons a t ih =>
    have ha : a ≠ 42 := hpre a (by simp)
    have := ih (fun x hx => hpre x (by simp [hx]))
    simp [memchrStar, ha, this]

/-! ### Helper lemmas: `countStars` -/

theorem pairwise_lt_map_sub_one (xs : List Nat) (hpos : ∀ x ∈ xs, 0 < x)
    (h : xs.Pairwise (· < ·)) : (xs.map (· - 1)).Pairwise (· < ·) := by
  induction xs with
  | nil => simp
  | cons a t ih =>
    rw [List.pairwise_cons] at h
    simp only [List.map_cons, List.pairwise_cons]
    refine ⟨?_, ih (fun x hx => hpos x (by simp [hx])) h.2⟩
    intro b hb
    obtain ⟨b0, hb0, rfl⟩ := List.mem_map.mp hb
    have h1 := h.1 b0 hb0
    have h2 := hpos a (by simp)
    omega

theorem countStars_ge_of_indices (idxs : List Nat) (l : List Nat)
    (hp : idxs.Pairwise (· < ·))
    (hmem : ∀ i ∈ idxs, i < strlenL l ∧ l.getD i 0 = 42) :
    idxs.length ≤ countStars l := by
  induction l generalizing idxs with
  | nil =>
    cases idxs with
    | nil => simp
    | cons i rest =>
      have := (hmem i (by simp)).1
      simp [strlenL] at this
  | cons a t ih =>
    by_cases ha : a = 0
    · cases idxs with
      | nil => simp
      | cons i rest =>
        have := (hmem i (by simp)).1
        simp [strlenL, ha] at this
    · cases idxs with
      | nil => simp
      | cons i rest =>
        rw [List.pairwise_cons] at hp
        have hstep : ∀ (js : List Nat), (∀ j ∈ js, 0 < j) → js.Pairwise (· < ·) →
            (∀ j ∈ js, j < strlenL (a :: t) ∧ (a :: t).getD j 0 = 42) →
            js.length ≤ countStars t := by
          intro js hjpos hjp hjmem
          have := ih (js.map (· - 1)) (pairwise_lt_map_sub_one js hjpos hjp) ?_
          · simpa using this
          · intro j hj
            obtain ⟨j0, hj0, rfl⟩ := List.mem_map.mp hj
            have hpos0 := hjpos j0 hj0
            obtain ⟨hlt, heq⟩ := hjmem j0 hj0
            simp only [strlenL, if_neg ha] at hlt
            cases j0 with
            | zero => omega
            | succ j1 =>
              simp only [List.getD_cons_succ] at heq
              exact ⟨by omega, by simpa using heq⟩
        cases Nat.eq_zero_or_pos i with
        | inl hi0 =>
          subst hi0
          have h42 : a = 42 := by simpa using (hmem 0 (by simp)).2
          have hkey := hstep rest (fun j hj => hp.1 j hj) hp.2
            (fun j hj => hmem j (by simp [hj]))
          simp only [countStars, if_neg ha, if_pos h42, List.length_cons]
          omega
        | inr hipos =>
          have hkey := hstep (i :: rest)
            (fun j hj => by
              rcases List.mem_cons.mp hj with rfl | hj
              · exact hipos
              · have := hp.1 j hj; omega)
            (List.pairwise_cons.mpr hp) hmem
          simp only [countStars, if_neg ha]
          have : countStars t ≤ (if a = 42 then 1 else 0) + countStars t := by
            split <;> omega
          omega

/-! ### Helper lemmas: `applyRule`, `applyRules`, `autocorrect` -/

theorem length_applyRule (d : List Nat) (r : Rule) :
    (applyRule d r).length = d.length := by
  unfold applyRule
  split
  · exact List.length_set d r.pos r.expected
  · rfl

theorem applyRule_getD_ne (d : List Nat) (r : Rule) (j : Nat) (h : r.pos ≠ j) :
    (applyRule d r).getD j 0 = d.getD j 0 := by
  unfold applyRule
  split
  · exact getD_set_ne d r.pos j r.expected h
  · rfl

theorem applyRule_getD_self (d : List Nat) (r : Rule) (h : r.pos < d.length) :
    (applyRule d r).getD r.pos 0 = if ruleFires d r then r.expected else d.getD r.pos 0 := by
  unfold applyRule
  split
  · exact getD_set_self d r.pos r.expected h
  · rfl

theorem strlenL_applyRule (d : List Nat) (r : Rule)
    (hp : r.pos < strlenL d) (he : r.expected ≠ 0) :
    strlenL (applyRule d r) = strlenL d := by
  unfold applyRule
  split
  · exact strlenL_set d r.pos r.expected hp he
  · rfl

theorem ruleFires_congr (d d2 : List Nat) (r : Rule)
    (h0 : d2.getD r.pos 0 = d.getD r.pos 0)
    (hl : d2.getD (r.pos - 1) 0 = d.getD (r.pos - 1) 0)
    (hr : d2.getD (r.pos + 1) 0 = d.getD (r.pos + 1) 0) :
    ruleFires d2 r = ruleFires d r := by
  unfold ruleFires
  rw [h0, hl, hr]

theorem applyRules_length (d : List Nat) (rs : List Rule) :
    (applyRules d rs).length = d.length := by
  induction rs generalizing d with
  | nil => rfl
  | cons r rest ih =>
    show (applyRules (applyRule d r) rest).length = d.length
    rw [ih, length_applyRule]

theorem applyRules_getD_ne (d : List Nat) (rs : List Rule) (j : Nat)
    (h : ∀ r ∈ rs, r.pos ≠ j) :
    (applyRules d rs).getD j 0 = d.getD j 0 := by
  induction rs generalizing d with
  | nil => rfl
  | cons r rest ih =>
    show (applyRules (applyRule d r) rest).getD j 0 = d.getD j 0
    rw [ih _ (fun r2 h2 => h r2 (by simp [h2])),
      applyRule_getD_ne d r j (h r (by simp))]

theorem applyRules_strlenL (d : List Nat) (rs : List Rule)
    (h : ∀ r ∈ rs, r.pos < strlenL d ∧ r.expected ≠ 0) :
    strlenL (applyRules d rs) = strlenL d := by
  induction rs generalizing d with
  | nil => rfl
  | cons r rest ih =>
    have hr := h r (by simp)
    have hstep : strlenL (applyRule d r) = strlenL d :=
      strlenL_applyRule d r hr.1 hr.2
    show strlenL (applyRules (applyRule d r) rest) = strlenL d
    rw [ih _ (fun r2 h2 => by
      obtain ⟨ha, hb⟩ := h r2 (by simp [h2])
      exact ⟨by rw [hstep]; exact ha, hb⟩), hstep]

theorem applyRules_id (d : List Nat) (rs : List Rule)
    (h : ∀ r ∈ rs, applyRule d r = d) :
    applyRules d rs = d := by
  induction rs with
  | nil => rfl
  | cons r rest ih =>
    show applyRules (applyRule d r) rest = d
    rw [h r (by simp)]
    exact ih (fun r2 h2 => h r2 (by simp [h2]))

theorem applyRules_getD_rule (rs : List Rule) (d : List Nat) (r : Rule)
    (hr : r ∈ rs)
    (hsep : rs.Pairwise (fun a b => a.pos + 1 < b.pos))
    (hlen : ∀ r2 ∈ rs, r2.pos < strlenL d)
    (hexp : ∀ r2 ∈ rs, r2.expected ≠ 0) :
    (applyRules d rs).getD r.pos 0 =
      if ruleFires d r then r.expected else d.getD r.pos 0 := by
  induction rs generalizing d with
  | nil => simp at hr
  | cons r0 rest ih =>
    rw [List.pairwise_cons] at hsep
    have hr0len : r0.pos < d.length :=
      Nat.lt_of_lt_of_le (hlen r0 (by simp)) (strlenL_le_length d)
    have hstep : strlenL (applyRule d r0) = strlenL d :=
      strlenL_applyRule d r0 (hlen r0 (by simp)) (hexp r0 (by simp))
    rcases List.mem_cons.mp hr with rfl | hmem
    · show (applyRules (applyRule d r) rest).getD r.pos 0 = _
      rw [applyRules_getD_ne _ rest r.pos
        (fun r2 h2 => by have := hsep.1 r2 h2; omega)]
      exact applyRule_getD_self d r hr0len
    · have hgap : r0.pos + 1 < r.pos := hsep.1 r hmem
      have e0 : (applyRule d r0).getD r.pos 0 = d.getD r.pos 0 :=
        applyRule_getD_ne d r0 r.pos (by omega)
      have el : (applyRule d r0).getD (r.pos - 1) 0 = d.getD (r.pos - 1) 0 :=
        applyRule_getD_ne d r0 (r.pos - 1) (by omega)
      have er : (applyRule d r0).getD (r.pos + 1) 0 = d.getD (r.pos + 1) 0 :=
        applyRule_getD_ne d r0 (r.pos + 1) (by omega)
      show (applyRules (applyRule d r0) rest).getD r.pos 0 = _
      rw [ih (applyRule d r0) hmem hsep.2
        (fun r2 h2 => by rw [hstep]; exact hlen r2 (by simp [h2]))
        (fun r2 h2 => hexp r2 (by simp [h2]))]
      rw [ruleFires_congr d (applyRule d r0) r e0 el er, e0]

theorem rules_pairwise_sep : rules.Pairwise (fun a b => a.pos + 1 < b.pos) := by
  simp [rules, List.pairwise_cons, rule11, rule17, rule24, rule29, rule33,
    rule47, rule53]

theorem rules_pos_le (r : Rule) (hr : r ∈ rules) : r.pos ≤ 53 := by
  fin_cases hr <;> simp [rule11, rule17, rule24, rule29, rule33, rule47, rule53]

theorem rules_expected (r : Rule) (hr : r ∈ rules) : r.expected = 42 := by
  fin_cases hr <;> simp [rule11, rule17, rule24, rule29, rule33, rule47, rule53]

theorem autocorrect_getD_rule (d : List Nat) (r : Rule) (hr : r ∈ rules)
    (h54 : 54 < strlenL d) :
    (autocorrect d).getD r.pos 0 =
      if ruleFires d r then r.expected else d.getD r.pos 0 := by
  unfold autocorrect
  rw [if_neg (by omega)]
  exact applyRules_getD_rule rules d r hr rules_pairwise_sep
    (fun r2 h2 => by have := rules_pos_le r2 h2; omega)
    (fun r2 h2 => by rw [rules_expected r2 h2]; omega)

theorem autocorrect_getD_notpos (d : List Nat) (j : Nat)
    (h : j ≠ 11 ∧ j ≠ 17 ∧ j ≠ 24 ∧ j ≠ 29 ∧ j ≠ 33 ∧ j ≠ 47 ∧ j ≠ 53) :
    (autocorrect d).getD j 0 = d.getD j 0 := by
  unfold autocorrect
  split
  · rfl
  · refine applyRules_getD_ne d rules j (fun r2 h2 => ?_)
    fin_cases h2 <;>
      simp only [rule11, rule17, rule24, rule29, rule33, rule47, rule53] <;>
      omega

theorem strlenL_autocorrect (d : List Nat) : strlenL (autocorrect d) = strlenL d := by
  unfold autocorrect
  split
  · rfl
  · refine applyRules_strlenL d rules (fun r2 h2 => ?_)
    have h1 := rules_pos_le r2 h2
    have h2e := rules_expected r2 h2
    exact ⟨by omega, by omega⟩

theorem length_autocorrect (d : List Nat) : (autocorrect d).length = d.length := by
  unfold autocorrect
  split
  · rfl
  · exact applyRules_length d rules

theorem autocorrect_of_short (d : List Nat) (h : strlenL d ≤ 54) :
    autocorrect d = d := by
  unfold autocorrect
  rw [if_pos h]

theorem autocorrect_of_long (d : List Nat) (h : 54 < strlenL d) :
    autocorrect d = applyRules d rules := by
  unfold autocorrect
  rw [if_neg (by omega)]

theorem ruleFires_autocorrect_false (d : List Nat) (r : Rule) (hr : r ∈ rules)
    (h54 : 54 < strlenL d)
    (hm : (autocorrect d).getD (r.pos - 1) 0 = d.getD (r.pos - 1) 0)
    (hp : (autocorrect d).getD (r.pos + 1) 0 = d.getD (r.pos + 1) 0) :
    ruleFires (autocorrect d) r = false := by
  have h0 := autocorrect_getD_rule d r hr h54
  cases hf : ruleFires d r with
  | true =>
    rw [hf] at h0
    simp only [if_true] at h0
    unfold ruleFires
    rw [h0]
    simp
  | false =>
    rw [hf] at h0
    simp only [Bool.false_eq_true, if_false] at h0
    rw [ruleFires_congr d (autocorrect d) r h0 hm hp, hf]

theorem autocorrect_idem_aux (d : List Nat) (h54 : 54 < strlenL d) :
    autocorrect (autocorrect d) = autocorrect d := by
  have hs : 54 < strlenL (autocorrect d) := by
    rw [strlenL_autocorrect]
    exact h54
  rw [autocorrect_of_long (autocorrect d) hs]
  refine applyRules_id (autocorrect d) rules (fun r hrr => ?_)
  have hfires : ruleFires (autocorrect d) r = false := by
    fin_cases hrr
    · exact ruleFires_autocorrect_false d rule11 (by simp [rules]) h54
        (autocorrect_getD_notpos d 10 (by decide))
        (autocorrect_getD_notpos d 12 (by decide))
    · exact ruleFires_autocorrect_false d rule17 (by simp [rules]) h54
        (autocorrect_getD_notpos d 16 (by decide))
        (autocorrect_getD_notpos d 18 (by decide))
    · exact ruleFires_autocorrect_false d rule24 (by simp [rules]) h54
        (autocorrect_getD_notpos d 23 (by decide))
        (autocorrect_getD_notpos d 25 (by decide))
    · exact ruleFires_autocorrect_false d rule29 (by simp [rules]) h54
        (autocorrect_getD_notpos d 28 (by decide))
        (autocorrect_getD_notpos d 30 (by decide))
    · exact ruleFires_autocorrect_false d rule33 (by simp [rules]) h54
        (autocorrect_getD_notpos d 32 (by decide))
        (autocorrect_getD_notpos d 34 (by decide))
    · exact ruleFires_autocorrect_false d rule47 (by simp [rules]) h54
        (autocorrect_getD_notpos d 46 (by decide))
        (autocorrect_getD_notpos d 48 (by decide))
    · exact ruleFires_autocorrect_false d rule53 (by simp [rules]) h54
        (autocorrect_getD_notpos d 52 (by decide))
        (autocorrect_getD_notpos d 54 (by decide))
  unfold applyRule
  rw [hfires]
  simp

/-! ### Helper lemmas: `hasSub` (memmem) and `strTake` -/

theorem isPrefixOf_eq_take (pat l : List Nat) :
    pat.isPrefixOf l = true ↔ pat.length ≤ l.length ∧ l.take pat.length = pat := by
  induction pat generalizing l with
  | nil => simp [List.isPrefixOf]
  | cons a pt ih =>
    cases l with
    | nil => simp [List.isPrefixOf]
    | cons b t =>
      rw [show (a :: pt).isPrefixOf (b :: t) = (a == b && pt.isPrefixOf t) from rfl,
        Bool.and_eq_true, beq_iff_eq, ih]
      constructor
      · rintro ⟨rfl, hle, htake⟩
        refine ⟨by simp only [List.length_cons]; omega, ?_⟩
        rw [List.length_cons, List.take_succ_cons, htake]
      · rintro ⟨hle, htake⟩
        rw [List.length_cons, List.take_succ_cons] at htake
        injection htake with h1 h2
        subst h1
        simp only [List.length_cons] at hle
        exact ⟨rfl, by omega, h2⟩

theorem hasSub_iff (pat l : List Nat) :
    hasSub pat l = true ↔
      ∃ j, j + pat.length ≤ l.length ∧ (l.drop j).take pat.length = pat := by
  induction l with
  | nil =>
    simp only [hasSub, isPrefixOf_eq_take, List.length_nil]
    constructor
    · rintro ⟨h1, h2⟩
      exact ⟨0, by omega, by simpa using h2⟩
    · rintro ⟨j, h1, h2⟩
      simp only [List.drop_nil, List.take_nil] at h2
      exact ⟨by omega, by simpa using h2⟩
  | cons c t ih =>
    simp only [hasSub, Bool.or_eq_true, isPrefixOf_eq_take, ih]
    constructor
    · rintro (⟨h1, h2⟩ | ⟨j, h1, h2⟩)
      · exact ⟨0, by simpa using h1, by simpa using h2⟩
      · exact ⟨j + 1, by simp only [List.length_cons]; omega,
          by simpa using h2⟩
    · rintro ⟨j, h1, h2⟩
      cases j with
      | zero =>
        exact Or.inl ⟨by simpa using h1, by simpa using h2⟩
      | succ j =>
        exact Or.inr ⟨j, by simp only [List.length_cons] at h1; omega,
          by simpa using h2⟩

theorem strTake_eq_take (n : Nat) (l : List Nat) (h : n ≤ strlenL l) :
    strTake n l = l.take n ∧ (strTake n l).length = n := by
  induction n generalizing l with
  | zero => simp [strTake]
  | succ m ih =>
    cases l with
    | nil => simp [strlenL] at h
    | cons c t =>
      have hc : c ≠ 0 := by
        intro e
        rw [e] at h
        simp [strlenL] at h
      simp only [strlenL, if_neg hc] at h
      obtain ⟨hm1, hm2⟩ := ih t (by omega)
      simp only [strTake, if_neg hc, List.take_succ_cons, List.cons.injEq,
        List.length_cons]
      exact ⟨⟨trivial, hm1⟩, by omega⟩

/-! ### Helper lemmas: `data_doneRun` -/

theorem length_data_doneRun (l : List Nat) : (data_doneRun l).2.length = l.length := by
  unfold data_doneRun
  by_cases h1 : l.length < 54
  · rw [if_pos h1]
  · rw [if_neg h1]
    cases hm : memchrStar l with
    | none => rfl
    | some p =>
      have hp := (memchrStar_spec l p hm).1
      have hlen : (l.take p ++ autocorrect (l.drop p)).length = l.length := by
        rw [List.length_append, List.length_take, length_autocorrect,
          List.length_drop]
        omega
      dsimp only
      split_ifs <;> simp [hlen]

theorem data_doneRun_true_shape (l : List Nat) (h : (data_doneRun l).1 = true) :
    ∃ p, memchrStar (data_doneRun l).2 = some p ∧
      53 ≤ strlenL ((data_doneRun l).2.drop p) := by
  unfold data_doneRun at h ⊢
  by_cases h1 : l.length < 54
  · rw [if_pos h1] at h
    simp at h
  · rw [if_neg h1] at h ⊢
    cases hm : memchrStar l with
    | none =>
      rw [hm] at h
      simp at h
    | some p =>
      rw [hm] at h
      dsimp only at h
      dsimp only
      obtain ⟨hplt, hp42, _⟩ := memchrStar_spec l p hm
      by_cases h2 : l.length - p < 54
      · rw [if_pos h2] at h
        simp at h
      · rw [if_neg h2] at h ⊢
        by_cases h3 : countStars (autocorrect (l.drop p)) < 7
        · rw [if_pos h3] at h
          simp at h
        · rw [if_neg h3] at h ⊢
          by_cases h4 : strlenL (autocorrect (l.drop p)) < 53
          · rw [if_pos h4] at h
            simp at h
          · rw [if_neg h4] at h ⊢
            have htl : (l.take p).length = p := by
              rw [List.length_take]
              omega
            have hdropped :
                (l.take p ++ autocorrect (l.drop p)).drop p = autocorrect (l.drop p) := by
              have hd := List.drop_left (l.take p) (autocorrect (l.drop p))
              rwa [htl] at hd
            have hsub0 : (autocorrect (l.drop p)).getD 0 0 = 42 := by
              rw [autocorrect_getD_notpos (l.drop p) 0 (by decide), getD_drop]
              simpa using hp42
            have hsubne : autocorrect (l.drop p) ≠ [] := by
              have : (autocorrect (l.drop p)).length = l.length - p := by
                rw [length_autocorrect, List.length_drop]
              intro e
              rw [e] at this
              simp at this
              omega
            have hmem2 : memchrStar (l.take p ++ autocorrect (l.drop p)) = some p := by
              have ha := memchrStar_append (l.take p) (autocorrect (l.drop p))
                (memchrStar_take_ne l p hm) (memchrStar_of_head _ hsubne hsub0)
              rwa [htl] at ha
            refine ⟨p, hmem2, ?_⟩
            show 53 ≤ strlenL ((l.take p ++ autocorrect (l.drop p)).drop p)
            rw [hdropped]
            omega

/-! ### Helper lemmas: the session loop -/

theorem runSession_reset_invariant (cs : List (List Nat)) :
    ∀ (buf : List Nat) (left reset : Nat), reset ≤ 1 →
      ((runSession buf left reset cs).1 = Outcome.aborted ↔
        (runSession buf left reset cs).2.2 = 2) ∧
      (runSession buf left reset cs).2.2 ≤ 2 := by
  induction cs with
  | nil =>
    intro buf left reset hr
    simp only [runSession]
    exact ⟨⟨fun h => absurd h (by decide), fun h => absurd h (by omega)⟩, by omega⟩
  | cons c rest ih =>
    intro buf left reset hr
    simp only [runSession]
    split_ifs with h0 h1 h2 h3
    · dsimp only
      exact ⟨⟨fun h => absurd h (by decide), fun h => absurd h (by omega)⟩, by omega⟩
    · dsimp only
      exact ⟨⟨fun h => absurd h (by decide), fun h => absurd h (by omega)⟩, by omega⟩
    · dsimp only
      exact ⟨⟨fun _ => h3, fun _ => rfl⟩, by omega⟩
    · exact ih [] 512 (reset + 1) (by omega)
    · exact ih _ _ reset hr

theorem sessionFills_bound (cs : List (List Nat)) :
    ∀ (buf : List Nat) (left reset : Nat),
      buf.length + left = 512 → 1 ≤ left →
      ∀ f ∈ sessionFills buf left reset cs, f ≤ 511 := by
  induction cs with
  | nil =>
    intro buf left reset hi hl f hf
    simp [sessionFills] at hf
  | cons c rest ih =>
    intro buf left reset hi hl f hf
    simp only [sessionFills] at hf
    by_cases h0 : (c.take (left - 1)).length = 0
    · rw [if_pos h0] at hf
      simp at hf
    · rw [if_neg h0] at hf
      have hc2 : (c.take (left - 1)).length ≤ left - 1 := by
        rw [List.length_take]
        omega
      rcases List.mem_cons.mp hf with rfl | hf2
      · rw [List.length_append]
        omega
      · split_ifs at hf2 with h1 h2 h3
        · simp at hf2
        · simp at hf2
        · exact ih [] 512 (reset + 1) (by simp) (by omega) f hf2
        · refine ih _ _ reset ?_ (by omega) f hf2
          rw [length_data_doneRun, List.length_append]
          omega

theorem runSession_success_shape (cs : List (List Nat)) :
    ∀ (buf : List Nat) (left reset : Nat),
      (runSession buf left reset cs).1 = Outcome.success →
      ∃ p, memchrStar (runSession buf left reset cs).2.1 = some p ∧
        53 ≤ strlenL ((runSession buf left reset cs).2.1.drop p) := by
  induction cs with
  | nil =>
    intro buf left reset h
    simp [runSession] at h
  | cons c rest ih =>
    intro buf left reset h
    simp only [runSession] at h ⊢
    by_cases h0 : (c.take (left - 1)).length = 0
    · rw [if_pos h0] at h
      simp at h
    · rw [if_neg h0] at h ⊢
      by_cases h1 : (data_doneRun (buf ++ c.take (left - 1))).1 = true
      · rw [if_pos h1] at h ⊢
        exact data_doneRun_true_shape _ h1
      · rw [if_neg h1] at h ⊢
        by_cases h2 : isCorrupted (data_doneRun (buf ++ c.take (left - 1))).2 = true
        · rw [if_pos h2] at h ⊢
          by_cases h3 : reset + 1 = 2
          · rw [if_pos h3] at h
            simp at h
          · rw [if_neg h3] at h ⊢
            exact ih [] 512 (reset + 1) h
        · rw [if_neg h2] at h ⊢
          exact ih _ _ reset h

theorem autocorrect_of_stars (d : List Nat)
    (h : ∀ r ∈ rules, d.getD r.pos 0 = 42) : autocorrect d = d := by
  by_cases hs : strlenL d ≤ 54
  · exact autocorrect_of_short d hs
  · rw [autocorrect_of_long d (by omega)]
    refine applyRules_id d rules (fun r hr => ?_)
    have hf : ruleFires d r = false := by
      unfold ruleFires
      rw [h r hr, rules_expected r hr]
      simp
    unfold applyRule
    rw [hf]
    simp

theorem successField_spec (buf : List Nat) (p : Nat)
    (hp : memchrStar buf = some p)
    (hstr : 53 ≤ strlenL (buf.drop p)) :
    successField buf = (buf.drop (p + 1)).take 10 ∧ (successField buf).length = 10 := by
  obtain ⟨hplen, h42, _⟩ := memchrStar_spec buf p hp
  have hdp : buf.drop p = 42 :: buf.drop (p + 1) := by
    rw [List.drop_eq_getElem_cons hplen]
    congr 1
    rw [← List.getD_eq_getElem buf 0 hplen]
    exact h42
  have hstr2 : 52 ≤ strlenL (buf.drop (p + 1)) := by
    rw [hdp] at hstr
    simp only [strlenL, if_neg (show ¬(42 = 0) by decide)] at hstr
    omega
  obtain ⟨ht1, ht2⟩ := strTake_eq_take 10 (buf.drop (p + 1)) (by omega)
  unfold successField
  rw [hp]
  exact ⟨ht1, ht2⟩

/-! ### Claim theorems -/

/-- C1, counterexample: a 54-byte buffer whose first byte is the first
delimiter and whose seven fixed offsets 11, 17, 24, 29, 33, 47, 53 all hold
`'*'` — a well-formed structure per the spec's layout rule — is nevertheless
rejected by the Payload Validator, because its second byte is a zero byte and
the star-counting scan stops there.  This refutes the claim as stated. -/
theorem c1_counterexample :
    starsButZero.length = 54 ∧
    memchrStar starsButZero = some 0 ∧
    starsButZero.getD 11 0 = 42 ∧ starsButZero.getD 17 0 = 42 ∧
    starsButZero.getD 24 0 = 42 ∧ starsButZero.getD 29 0 = 42 ∧
    starsButZero.getD 33 0 = 42 ∧ starsButZero.getD 47 0 = 42 ∧
    starsButZero.getD 53 0 = 42 ∧
    (data_doneRun starsButZero).1 = false := by
  decide

/-- C1, amended: for every buffer consisting of a delimiter-free prefix
followed by a payload of at least 54 bytes that starts with `'*'`, has `'*'`
at the seven fixed offsets, and — the amendment — has no zero byte among its
first 54 bytes, the Payload Validator returns valid, independently of the
bytes preceding the delimiter. -/
theorem c1_valid_payload_accepted (pre d : List Nat)
    (hpre : ∀ x ∈ pre, x ≠ 42)
    (hlen : 54 ≤ d.length)
    (h0 : d.getD 0 0 = 42)
    (h11 : d.getD 11 0 = 42) (h17 : d.getD 17 0 = 42) (h24 : d.getD 24 0 = 42)
    (h29 : d.getD 29 0 = 42) (h33 : d.getD 33 0 = 42) (h47 : d.getD 47 0 = 42)
    (h53 : d.getD 53 0 = 42)
    (hnz : ∀ i, i < 54 → d.getD i 0 ≠ 0) :
    (data_doneRun (pre ++ d)).1 = true := by
  have hdne : d ≠ [] := by
    intro e
    rw [e] at hlen
    simp at hlen
  have hm : memchrStar (pre ++ d) = some pre.length :=
    memchrStar_append pre d hpre (memchrStar_of_head d hdne h0)
  have hstar : ∀ r ∈ rules, d.getD r.pos 0 = 42 := by
    intro r hr
    fin_cases hr <;>
      simp only [rule11, rule17, rule24, rule29, rule33, rule47, rule53] <;>
      assumption
  have hauto : autocorrect d = d := autocorrect_of_stars d hstar
  have hstrlen : 54 ≤ strlenL d := le_strlenL_of_forall_ne_zero d 54 hnz hlen
  have hcount : 7 ≤ countStars d := by
    have := countStars_ge_of_indices [0, 11, 17, 24, 29, 33, 47] d
      (by decide) ?_
    · simpa using this
    · intro i hi
      fin_cases hi <;> exact ⟨by omega, by assumption⟩
  unfold data_doneRun
  rw [if_neg (by rw [List.length_append]; omega), hm]
  dsimp only
  rw [List.drop_left, hauto,
    if_neg (by rw [List.length_append]; omega),
    if_neg (by omega), if_neg (by omega)]

/-- C1, witness: the sample payload preceded by a noisy delimiter-free
preamble is accepted. -/
theorem c1_witness : (data_doneRun (samplePreamble ++ samplePayload)).1 = true :=
  c1_valid_payload_accepted samplePreamble samplePayload (by decide) (by decide)
    (by decide) (by decide) (by decide) (by decide) (by decide) (by decide)
    (by decide) (by decide) (by decide)

/-- C2: for every sequence of reads, the session ends `ABORTED` exactly when
the reset counter reaches 2, and the reset counter never exceeds 2 — so the
session never aborts after 1 reset and never records a 3rd reset. -/
theorem c2_aborted_iff_two_resets (cs : List (List Nat)) :
    ((runSession [] 512 0 cs).1 = Outcome.aborted ↔
      (runSession [] 512 0 cs).2.2 = 2) ∧
    (runSession [] 512 0 cs).2.2 ≤ 2 :=
  runSession_reset_invariant cs [] 512 0 (by omega)

/-- C3: for every buffer longer than 54 bytes, the Corruption Detector
returns true iff one of the two 3-byte markers `01 00 00` or `00 00 00`
occurs entirely at some offset at or after 30; a marker lying even partly
before offset 30 yields no such offset and so does not trigger detection. -/
theorem c3_detector_iff (l : List Nat) (h : 54 < l.length) :
    isCorrupted l = true ↔
      ∃ i, 30 ≤ i ∧ i + 3 ≤ l.length ∧
        ((l.drop i).take 3 = [1, 0, 0] ∨ (l.drop i).take 3 = [0, 0, 0]) := by
  unfold isCorrupted
  rw [decide_eq_true h, Bool.true_and, Bool.or_eq_true, hasSub_iff, hasSub_iff]
  simp only [List.length_cons, List.length_nil, List.length_drop]
  constructor
  · rintro (⟨j, hj, ht⟩ | ⟨j, hj, ht⟩)
    · rw [List.drop_drop] at ht
      exact ⟨30 + j, by omega, by omega, Or.inl ht⟩
    · rw [List.drop_drop] at ht
      exact ⟨30 + j, by omega, by omega, Or.inr ht⟩
  · rintro ⟨i, h30, hlen, ht | ht⟩
    · refine Or.inl ⟨i - 30, by omega, ?_⟩
      rw [List.drop_drop, show 30 + (i - 30) = i from by omega]
      exact ht
    · refine Or.inr ⟨i - 30, by omega, ?_⟩
      rw [List.drop_drop, show 30 + (i - 30) = i from by omega]
      exact ht

/-- C3, witness: a 58-byte buffer carrying `00 00 00` at offset 30 is
detected as corrupted. -/
theorem c3_witness : isCorrupted markerAt30 = true :=
  (c3_detector_iff markerAt30 (by decide)).mpr
    ⟨30, by decide, by decide, Or.inr (by decide)⟩

/-- C4: autocorrection is idempotent — applying the autocorrection pass
twice yields exactly the buffer produced by applying it once. -/
theorem c4_autocorrect_idempotent (d : List Nat) :
    autocorrect (autocorrect d) = autocorrect d := by
  by_cases h : strlenL d ≤ 54
  · rw [autocorrect_of_short d h]
    exact autocorrect_of_short d h
  · exact autocorrect_idem_aux d (by omega)

/-- C5: for every rule of the autocorrection table and every buffer long
enough for autocorrection to run (strlen > 54), the byte at the rule's
offset is rewritten to the expected character `'*'` exactly when it differs
from it and both neighbor predicates hold of the adjacent bytes; in every
other case it is left unchanged, and a byte already equal to the expected
character is never modified. -/
theorem c5_rule_conditional_rewrite (d : List Nat) (r : Rule) (hr : r ∈ rules)
    (h54 : 54 < strlenL d) :
    ((autocorrect d).getD r.pos 0 =
      if d.getD r.pos 0 ≠ r.expected ∧ r.condl.eval (d.getD (r.pos - 1) 0) = true
          ∧ r.condr.eval (d.getD (r.pos + 1) 0) = true
        then r.expected else d.getD r.pos 0) ∧
    (d.getD r.pos 0 = r.expected → (autocorrect d).getD r.pos 0 = r.expected) := by
  have h0 := autocorrect_getD_rule d r hr h54
  have hiff : ruleFires d r = true ↔
      (d.getD r.pos 0 ≠ r.expected ∧ r.condl.eval (d.getD (r.pos - 1) 0) = true
        ∧ r.condr.eval (d.getD (r.pos + 1) 0) = true) := by
    unfold ruleFires
    simp [Bool.and_eq_true, bne_iff_ne, and_assoc]
  constructor
  · rw [h0]
    by_cases hf : ruleFires d r = true
    · rw [if_pos hf, if_pos (hiff.mp hf)]
    · rw [if_neg hf, if_neg (fun hc => hf (hiff.mpr hc))]
  · intro he
    have hf : ¬ruleFires d r = true := fun hf => (hiff.mp hf).1 he
    rw [h0, if_neg hf]
    exact he

/-- C5, witness: on a 55-byte buffer whose offset 11 already holds `'*'`,
the pass leaves that byte equal to the expected character. -/
theorem c5_witness : (autocorrect c5buf).getD rule11.pos 0 = rule11.expected :=
  (c5_rule_conditional_rewrite c5buf rule11 (by decide) (by decide)).2 (by decide)

/-- C6: for every session ending in `SUCCESS`, the identifier field the
success filename embeds equals exactly the 10 bytes immediately following
the first delimiter of the final buffer, has length exactly 10, and the
filename also carries the capture timestamp. -/
theorem c6_success_filename (cs : List (List Nat)) (dir : List Nat) (t p : Nat)
    (hs : (runSession [] 512 0 cs).1 = Outcome.success)
    (hp : memchrStar (runSession [] 512 0 cs).2.1 = some p) :
    (save_name_success dir t (runSession [] 512 0 cs).2.1).idField
        = ((runSession [] 512 0 cs).2.1.drop (p + 1)).take 10 ∧
    (save_name_success dir t (runSession [] 512 0 cs).2.1).idField.length = 10 ∧
    (save_name_success dir t (runSession [] 512 0 cs).2.1).epochTime = t := by
  obtain ⟨p2, hp2, hstr⟩ := runSession_success_shape cs [] 512 0 hs
  rw [hp] at hp2
  injection hp2 with he
  subst he
  obtain ⟨hf1, hf2⟩ := successField_spec _ p hp hstr
  exact ⟨hf1, hf2, rfl⟩

/-- C6, witness: one read delivering the sample payload succeeds and the
filename field is the 10 bytes after the delimiter. -/
theorem c6_witness :
    (save_name_success [] 0 (runSession [] 512 0 [samplePayload]).2.1).idField
        = ((runSession [] 512 0 [samplePayload]).2.1.drop (0 + 1)).take 10 ∧
    (save_name_success [] 0 (runSession [] 512 0 [samplePayload]).2.1).idField.length = 10 ∧
    (save_name_success [] 0 (runSession [] 512 0 [samplePayload]).2.1).epochTime = 0 :=
  c6_success_filename [samplePayload] [] 0 0 (by decide) (by decide)

/-- C7: in the post-loop effect trace of a session, whatever the terminal
state, the socket close is the first effect: any persistence effect occurs
strictly after it. -/
theorem c7_close_before_persist (log : Bool) (cs : List (List Nat)) (i : Nat)
    (b : List Nat) (s : Bool)
    (h : (handlerTrace log cs).get? i = some (Ev.persist b s)) :
    (handlerTrace log cs).get? 0 = some Ev.close ∧ 0 < i := by
  constructor
  · rfl
  · cases i with
    | zero => simp [handlerTrace] at h
    | succ n => omega

/-- C7, witness: with persistence enabled and an immediately closed
connection, the persist effect sits behind the close effect. -/
theorem c7_witness : (handlerTrace true []).get? 0 = some Ev.close ∧ 0 < 1 :=
  c7_close_before_persist true [] 1 [] false (by decide)

/-- C8, counterexample: a buffer whose substring from the first delimiter
holds a single `'*'` (count 1 < 7) is still declared valid, because the
seven autocorrection rules all fire and raise the star count to 8 before
the counting step runs.  This refutes the claim as stated about the
incoming buffer's delimiter count. -/
theorem c8_counterexample :
    memchrStar starOne = some 0 ∧
    countStars (starOne.drop 0) = 1 ∧
    (data_doneRun starOne).1 = true := by
  decide

/-- C8, amended: for every buffer, if the substring starting at the first
delimiter contains, after the in-place autocorrection pass, fewer than 7
occurrences of `'*'` (counting to the end of valid data as a bounded
string), the Payload Validator returns incomplete. -/
theorem c8_star_count_required (l : List Nat) (p : Nat)
    (hp : memchrStar l = some p)
    (hc : countStars (autocorrect (l.drop p)) < 7) :
    (data_doneRun l).1 = false := by
  unfold data_doneRun
  by_cases h1 : l.length < 54
  · rw [if_pos h1]
  · rw [if_neg h1, hp]
    dsimp only
    by_cases h2 : l.length - p < 54
    · rw [if_pos h2]
    · rw [if_neg h2, if_pos hc]

/-- C8, witness: a buffer whose payload region holds one star is rejected. -/
theorem c8_witness : (data_doneRun lowStars).1 = false :=
  c8_star_count_required lowStars 60 (by decide) (by decide)

/-- C9: every fill level reached in the session read loop is at most 511,
one below the 512-byte capacity, so the logical terminator written at index
fill is always inside the buffer. -/
theorem c9_fill_bound (cs : List (List Nat)) (f : Nat)
    (hf : f ∈ sessionFills [] 512 0 cs) :
    f ≤ 511 ∧ f < 512 := by
  have h := sessionFills_bound cs [] 512 0 (by simp) (by omega) f hf
  exact ⟨h, by omega⟩

/-- C9, witness: a session that reads two bytes reaches fill level 2. -/
theorem c9_witness : 2 ≤ 511 ∧ 2 < 512 :=
  c9_fill_bound [[42, 42]] 2 (by decide)

/-- C10, counterexample: a buffer with a zero byte exactly 53 bytes after
its first delimiter — within the 53 bytes following the delimiter — is
still declared valid: the star count over the 53 nonzero bytes is 7 and the
length check `tmp < start + 53` is not strict at 53.  This refutes the
claim as stated. -/
theorem c10_counterexample :
    memchrStar zeroAt53 = some 0 ∧
    zeroAt53.getD (0 + 53) 0 = 0 ∧
    (data_doneRun zeroAt53).1 = true := by
  decide

/-- C10, amended: for every buffer with a zero byte at offset `k` from the
first delimiter where `1 ≤ k ≤ 52` (strictly inside the first 53 bytes
after the delimiter), the Payload Validator returns incomplete regardless
of how many raw bytes follow. -/
theorem c10_zero_byte_incomplete (l : List Nat) (p k : Nat)
    (hp : memchrStar l = some p)
    (hk1 : 1 ≤ k) (hk2 : k ≤ 52)
    (hz : l.getD (p + k) 0 = 0) :
    (data_doneRun l).1 = false := by
  have hsub : strlenL (l.drop p) ≤ k := by
    apply strlenL_le_of_getD_zero
    rw [getD_drop]
    exact hz
  have hauto : autocorrect (l.drop p) = l.drop p :=
    autocorrect_of_short _ (by omega)
  unfold data_doneRun
  by_cases h1 : l.length < 54
  · rw [if_pos h1]
  · rw [if_neg h1, hp]
    dsimp only
    by_cases h2 : l.length - p < 54
    · rw [if_pos h2]
    · rw [if_neg h2, hauto]
      by_cases h3 : countStars (l.drop p) < 7
      · rw [if_pos h3]
      · rw [if_neg h3, if_pos (show strlenL (l.drop p) < 53 by omega)]

/-- C10, witness: a zero byte one position after the delimiter makes the
validator reject. -/
theorem c10_witness : (data_doneRun starsButZero).1 = false :=
  c10_zero_byte_incomplete starsButZero 0 1 (by decide) (by decide) (by decide)
    (by decide)

end Proteld
